import Mathlib

/-!
Verification development for the blockgrave simulation core (src/app.rs).

Modelling conventions of this shallow embedding:
  * `f64` values are modelled as exact rationals (`ℚ`);
  * `usize`/`u32` as `ℕ`, `i64` as `ℤ`;
  * `DateTime<Utc>` as integer milliseconds since the Unix epoch;
  * `Instant` as rational seconds since the monotonic clock's epoch
    (a non-negative point; `Instant::checked_sub` fails below that epoch);
  * `Duration` as a rational number of seconds;
  * fallible operations return `Option`/`Except`;
  * randomness is passed in explicitly: every random draw the code makes
    becomes an argument (a drift/noise/interval choice list for the ticker,
    pre-drawn jobs and identifier strings for the generator).
-/

namespace Blockgrave

/-- Rust `f64::clamp(lo, hi)` on the rational model. -/
def fclamp (x lo hi : ℚ) : ℚ := min (max x lo) hi

/-- Constant `EXCHANGE_BUY_MULTIPLIER` of src/app.rs. -/
def EXCHANGE_BUY_MULTIPLIER : ℚ := 1.01

/-- Constant `EXCHANGE_SELL_MULTIPLIER` of src/app.rs. -/
def EXCHANGE_SELL_MULTIPLIER : ℚ := 0.99

/-- The `1e-6` tolerance hard-coded in `BankState::sell_chain` and
`BankState::buy_chain`. -/
def TRADE_EPS : ℚ := 1 / 1000000

/-- Constant `MAX_MESSAGES` of src/app.rs. -/
def MAX_MESSAGES : ℕ := 5

/-- Constant `JOB_POOL_SIZE` of src/app.rs. -/
def JOB_POOL_SIZE : ℕ := 4

/-- Constant `PRICE_UPDATE_MIN_SECS` of src/app.rs. -/
def PRICE_UPDATE_MIN_SECS : ℚ := 5

/-- Constant `PRICE_UPDATE_MAX_SECS` of src/app.rs. -/
def PRICE_UPDATE_MAX_SECS : ℚ := 15

/-- Struct `BankState` of src/app.rs: the exchange account. -/
structure BankState where
  chain_balance : ℚ
  credits_balance : ℚ
deriving DecidableEq, Repr

/-- `impl Default for BankState`. -/
def BankState.default : BankState := { chain_balance := 0, credits_balance := 100 }

/-- Method `BankState::sell_chain`: the Rust code mutates the receiver and
returns `Option<f64>`; here the updated bank is returned alongside the
proceeds, and `none` leaves the bank unchanged. -/
def BankState.sell_chain (b : BankState) (amount market_price : ℚ) :
    Option (BankState × ℚ) :=
  if b.chain_balance + TRADE_EPS < amount then none
  else
    let unit_price := market_price * EXCHANGE_SELL_MULTIPLIER
    let proceeds := amount * unit_price
    some ({ chain_balance := b.chain_balance - amount,
            credits_balance := b.credits_balance + proceeds }, proceeds)

/-- Method `BankState::buy_chain`. -/
def BankState.buy_chain (b : BankState) (amount market_price : ℚ) :
    Option (BankState × ℚ) :=
  let unit_price := market_price * EXCHANGE_BUY_MULTIPLIER
  let cost := amount * unit_price
  if b.credits_balance + TRADE_EPS < cost then none
  else
    some ({ chain_balance := b.chain_balance + amount,
            credits_balance := b.credits_balance - cost }, cost)

/-- One exchange command as issued by `App::handle_bank_input` (direction,
amount and the market price read when the key was handled). -/
inductive TradeOp where
  | sell (amount market_price : ℚ)
  | buy (amount market_price : ℚ)
deriving DecidableEq, Repr

/-- Execute one trade; a rejected trade (`none`) leaves the bank unchanged,
exactly as the Rust key handlers do. -/
def applyTrade (b : BankState) : TradeOp → BankState
  | .sell a p => ((b.sell_chain a p).map Prod.fst).getD b
  | .buy a p => ((b.buy_chain a p).map Prod.fst).getD b

/-- A trade with a non-negative amount and a positive market price (the
shapes `handle_bank_input` can produce: amounts 1.0 and 5.0). -/
def TradeOp.wellFormed : TradeOp → Prop
  | .sell a p => 0 ≤ a ∧ 0 < p
  | .buy a p => 0 ≤ a ∧ 0 < p

/-- Both balances stay at or above `-TRADE_EPS`: the epsilon-tolerant
preconditions allow a dip of at most the tolerance below zero. -/
def BankAboveNegEps (b : BankState) : Prop :=
  -TRADE_EPS ≤ b.chain_balance ∧ -TRADE_EPS ≤ b.credits_balance

theorem applyTrade_sell_rejected (b : BankState) (a p : ℚ)
    (h : b.chain_balance + TRADE_EPS < a) : applyTrade b (.sell a p) = b := by
  simp [applyTrade, BankState.sell_chain, if_pos h]

theorem applyTrade_sell_accepted (b : BankState) (a p : ℚ)
    (h : ¬ b.chain_balance + TRADE_EPS < a) :
    applyTrade b (.sell a p) =
      { chain_balance := b.chain_balance - a,
        credits_balance := b.credits_balance + a * (p * EXCHANGE_SELL_MULTIPLIER) } := by
  simp [applyTrade, BankState.sell_chain, if_neg h]

theorem applyTrade_buy_rejected (b : BankState) (a p : ℚ)
    (h : b.credits_balance + TRADE_EPS < a * (p * EXCHANGE_BUY_MULTIPLIER)) :
    applyTrade b (.buy a p) = b := by
  simp [applyTrade, BankState.buy_chain, if_pos h]

theorem applyTrade_buy_accepted (b : BankState) (a p : ℚ)
    (h : ¬ b.credits_balance + TRADE_EPS < a * (p * EXCHANGE_BUY_MULTIPLIER)) :
    applyTrade b (.buy a p) =
      { chain_balance := b.chain_balance + a,
        credits_balance := b.credits_balance - a * (p * EXCHANGE_BUY_MULTIPLIER) } := by
  simp [applyTrade, BankState.buy_chain, if_neg h]

theorem applyTrade_preserves_aboveNegEps (b : BankState) (op : TradeOp)
    (hop : op.wellFormed) (hb : BankAboveNegEps b) :
    BankAboveNegEps (applyTrade b op) := by
  obtain ⟨hc, hr⟩ := hb
  cases op with
  | sell a p =>
    obtain ⟨ha, hp⟩ := hop
    by_cases hcond : b.chain_balance + TRADE_EPS < a
    · rw [applyTrade_sell_rejected b a p hcond]; exact ⟨hc, hr⟩
    · rw [applyTrade_sell_accepted b a p hcond]
      push_neg at hcond
      have hpr : 0 ≤ a * (p * EXCHANGE_SELL_MULTIPLIER) := by
        have hm : (0 : ℚ) ≤ p * EXCHANGE_SELL_MULTIPLIER := by
          have : (0 : ℚ) ≤ EXCHANGE_SELL_MULTIPLIER := by norm_num [EXCHANGE_SELL_MULTIPLIER]
          exact mul_nonneg hp.le this
        exact mul_nonneg ha hm
      exact ⟨by dsimp only; linarith, by dsimp only; linarith⟩
  | buy a p =>
    obtain ⟨ha, hp⟩ := hop
    by_cases hcond : b.credits_balance + TRADE_EPS < a * (p * EXCHANGE_BUY_MULTIPLIER)
    · rw [applyTrade_buy_rejected b a p hcond]; exact ⟨hc, hr⟩
    · rw [applyTrade_buy_accepted b a p hcond]
      push_neg at hcond
      exact ⟨by dsimp only; linarith, by dsimp only; linarith⟩

theorem foldl_applyTrade_aboveNegEps (ops : List TradeOp)
    (hops : ∀ op ∈ ops, op.wellFormed) (b : BankState) (hb : BankAboveNegEps b) :
    BankAboveNegEps (ops.foldl applyTrade b) := by
  induction ops generalizing b with
  | nil => exact hb
  | cons op rest ih =>
    exact ih (fun o ho => hops o (List.mem_cons_of_mem _ ho))
      (applyTrade b op)
      (applyTrade_preserves_aboveNegEps b op (hops op (List.mem_cons_self op rest)) hb)

/-- C2 counterexample: starting from the initial account (0 chain, 100
credits), selling `1e-6` chain at price 1 is accepted by the epsilon-tolerant
precondition and leaves the chain balance strictly negative, so the balances
are not `≥ 0` after every call. -/
theorem C2_counterexample_negative_chain_balance :
    (BankState.default.sell_chain (1 / 1000000) 1).isSome = true ∧
    ((BankState.default.sell_chain (1 / 1000000) 1).getD
        (BankState.default, 0)).1.chain_balance < 0 := by
  constructor
  · norm_num [BankState.sell_chain, BankState.default, TRADE_EPS]
  · norm_num [BankState.sell_chain, BankState.default, TRADE_EPS,
      EXCHANGE_SELL_MULTIPLIER]

/-- C2 amended: for every sequence of `sell_chain`/`buy_chain` calls with
non-negative amounts and positive market prices, starting from the initial
account state, each balance stays at or above `-1e-6` after every call — the
epsilon-tolerant preconditions bound the dip below zero by the tolerance but
do not keep the balances non-negative. -/
theorem C2_amended_balances_above_neg_eps (ops : List TradeOp)
    (hops : ∀ op ∈ ops, op.wellFormed) :
    BankAboveNegEps (ops.foldl applyTrade BankState.default) :=
  foldl_applyTrade_aboveNegEps ops hops BankState.default (by
    constructor <;> norm_num [BankState.default, TRADE_EPS])

/-- Witness for the amended C2 statement at a concrete trade sequence. -/
theorem C2_amended_balances_above_neg_eps_witness :
    (∀ op ∈ [TradeOp.sell (1 / 1000000) 1, TradeOp.buy 1 1], op.wellFormed) ∧
    BankAboveNegEps
      (([TradeOp.sell (1 / 1000000) 1, TradeOp.buy 1 1]).foldl applyTrade
        BankState.default) :=
  ⟨by intro op hop; fin_cases hop <;> exact ⟨by norm_num, by norm_num⟩,
   C2_amended_balances_above_neg_eps _
     (by intro op hop; fin_cases hop <;> exact ⟨by norm_num, by norm_num⟩)⟩

/-- C3: buying `x` chain at price `p` and then selling the same `x` at the
same price succeeds, leaves the chain balance exactly unchanged and strictly
decreases the credits balance (the asymmetric spread loses value). -/
theorem C3_round_trip_loses_value (b : BankState) (x p : ℚ) (hx : 0 < x)
    (hp : 0 < p) (hchain : 0 ≤ b.chain_balance) (b1 : BankState) (cost : ℚ)
    (hbuy : b.buy_chain x p = some (b1, cost)) :
    ∃ b2 proceeds, b1.sell_chain x p = some (b2, proceeds) ∧
      b2.chain_balance = b.chain_balance ∧
      b2.credits_balance < b.credits_balance := by
  unfold BankState.buy_chain at hbuy
  dsimp only at hbuy
  split at hbuy
  · exact absurd hbuy (by simp)
  · rename_i hcond
    push_neg at hcond
    simp only [Option.some.injEq, Prod.mk.injEq] at hbuy
    obtain ⟨hb1, hcost⟩ := hbuy
    subst hb1
    refine ⟨{ chain_balance := b.chain_balance + x - x,
              credits_balance := (b.credits_balance - x * (p * EXCHANGE_BUY_MULTIPLIER))
                + x * (p * EXCHANGE_SELL_MULTIPLIER) },
            x * (p * EXCHANGE_SELL_MULTIPLIER), ?_, ?_, ?_⟩
    · unfold BankState.sell_chain
      rw [if_neg]
      dsimp only
      push_neg
      have hε : (0 : ℚ) < TRADE_EPS := by norm_num [TRADE_EPS]
      linarith
    · dsimp only
      ring
    · dsimp only
      have hlt : x * (p * EXCHANGE_SELL_MULTIPLIER) < x * (p * EXCHANGE_BUY_MULTIPLIER) := by
        apply mul_lt_mul_of_pos_left _ hx
        apply mul_lt_mul_of_pos_left _ hp
        norm_num [EXCHANGE_SELL_MULTIPLIER, EXCHANGE_BUY_MULTIPLIER]
      linarith

/-- Witness for C3 at `x = 1`, `p = 1` from the initial account. -/
theorem C3_round_trip_loses_value_witness :
    ∃ b2 proceeds,
      ({ chain_balance := 1, credits_balance := 9899 / 100 } :
          BankState).sell_chain 1 1 = some (b2, proceeds) ∧
      b2.chain_balance = BankState.default.chain_balance ∧
      b2.credits_balance < BankState.default.credits_balance :=
  C3_round_trip_loses_value BankState.default 1 1 (by norm_num) (by norm_num)
    (by norm_num [BankState.default])
    { chain_balance := 1, credits_balance := 9899 / 100 } (101 / 100) (by
      norm_num [BankState.buy_chain, BankState.default, TRADE_EPS,
        EXCHANGE_BUY_MULTIPLIER])

/-- Struct `LinkletProgress` of src/app.rs. -/
structure LinkletProgress where
  difficulty : ℚ
  remaining : ℚ
deriving DecidableEq, Repr

/-- `LinkletProgress::new`. -/
def LinkletProgress.new (difficulty : ℚ) : LinkletProgress :=
  { difficulty := difficulty, remaining := difficulty }

/-- Struct `MiningJob` of src/app.rs. -/
structure MiningJob where
  name : String
  rows : ℕ
  cols : ℕ
  difficulty : ℚ
  payout_chain : ℚ
  linklet_difficulties : List ℚ
  market_impact : ℚ
  lore : String
deriving DecidableEq, Repr

/-- Struct `ActiveJob` of src/app.rs; `started_at` is the `Instant` in
seconds since the monotonic clock's epoch. -/
structure ActiveJob where
  job : MiningJob
  linklets : List LinkletProgress
  current_index : ℕ
  started_at : ℚ
deriving DecidableEq, Repr

/-- `ActiveJob::new`, with `Instant::now()` passed in as `now`. -/
def ActiveJob.new (job : MiningJob) (now : ℚ) : ActiveJob :=
  { job := job, linklets := job.linklet_difficulties.map LinkletProgress.new,
    current_index := 0, started_at := now }

/-- The while loop of `ActiveJob::apply_work`, acting on the suffix of
linklets from the cursor; returns the rewritten suffix and how many cells
the cursor advanced. Loop guard `work > 0.0 && cursor < len` and the branch
on `linklet.remaining > work` are transcribed directly. -/
def applyWorkAux (work : ℚ) : List LinkletProgress → List LinkletProgress × ℕ
  | [] => ([], 0)
  | l :: rest =>
    if work ≤ 0 then (l :: rest, 0)
    else if work < l.remaining then
      ({ l with remaining := l.remaining - work } :: rest, 0)
    else
      let res := applyWorkAux (work - l.remaining) rest
      ({ l with remaining := 0 } :: res.1, res.2 + 1)

/-- Method `ActiveJob::apply_work`. -/
def ActiveJob.apply_work (a : ActiveJob) (work : ℚ) : ActiveJob :=
  let res := applyWorkAux work (a.linklets.drop a.current_index)
  { a with linklets := a.linklets.take a.current_index ++ res.1,
           current_index := a.current_index + res.2 }

/-- Method `ActiveJob::is_complete`. -/
def ActiveJob.is_complete (a : ActiveJob) : Bool := a.linklets.length ≤ a.current_index

/-- Total difficulty over all linklets, the `total` of
`ActiveJob::completion_ratio`. -/
def ActiveJob.totalDifficulty (a : ActiveJob) : ℚ :=
  (a.linklets.map LinkletProgress.difficulty).sum

/-- Remaining work summed from the cursor on, the `remaining` of
`ActiveJob::completion_ratio`. -/
def ActiveJob.remainingFromCursor (a : ActiveJob) : ℚ :=
  ((a.linklets.drop a.current_index).map LinkletProgress.remaining).sum

/-- Method `ActiveJob::completion_ratio`. -/
def ActiveJob.completion_ratio (a : ActiveJob) : ℚ :=
  if a.linklets.isEmpty then 0
  else fclamp ((a.totalDifficulty - a.remainingFromCursor) / a.totalDifficulty) 0 1

/-- Method `ActiveJob::remaining_work`: remaining summed over all linklets. -/
def ActiveJob.remaining_work (a : ActiveJob) : ℚ :=
  (a.linklets.map LinkletProgress.remaining).sum

theorem applyWorkAux_nonpos (w : ℚ) (xs : List LinkletProgress) (h : w ≤ 0) :
    applyWorkAux w xs = (xs, 0) := by
  cases xs <;> simp [applyWorkAux, h]

theorem applyWorkAux_length (w : ℚ) (xs : List LinkletProgress) :
    (applyWorkAux w xs).1.length = xs.length := by
  induction xs generalizing w with
  | nil => simp [applyWorkAux]
  | cons l rest ih =>
    by_cases h0 : w ≤ 0
    · simp [applyWorkAux, h0]
    · by_cases hlt : w < l.remaining
      · simp [applyWorkAux, h0, hlt]
      · simp [applyWorkAux, h0, hlt, ih]

theorem applyWorkAux_advance_le (w : ℚ) (xs : List LinkletProgress) :
    (applyWorkAux w xs).2 ≤ xs.length := by
  induction xs generalizing w with
  | nil => simp [applyWorkAux]
  | cons l rest ih =>
    by_cases h0 : w ≤ 0
    · simp [applyWorkAux, h0]
    · by_cases hlt : w < l.remaining
      · simp [applyWorkAux, h0, hlt]
      · simpa [applyWorkAux, h0, hlt] using ih (w - l.remaining)

theorem applyWorkAux_map_difficulty (w : ℚ) (xs : List LinkletProgress) :
    (applyWorkAux w xs).1.map LinkletProgress.difficulty
      = xs.map LinkletProgress.difficulty := by
  induction xs generalizing w with
  | nil => simp [applyWorkAux]
  | cons l rest ih =>
    by_cases h0 : w ≤ 0
    · simp [applyWorkAux, h0]
    · by_cases hlt : w < l.remaining
      · simp [applyWorkAux, h0, hlt]
      · simp [applyWorkAux, h0, hlt, ih]

theorem applyWorkAux_zeroed (w : ℚ) (xs : List LinkletProgress) :
    ∀ l ∈ (applyWorkAux w xs).1.take (applyWorkAux w xs).2,
      l.remaining = 0 := by
  induction xs generalizing w with
  | nil => simp [applyWorkAux]
  | cons l rest ih =>
    by_cases h0 : w ≤ 0
    · simp [applyWorkAux, h0]
    · by_cases hlt : w < l.remaining
      · simp [applyWorkAux, h0, hlt]
      · simp only [applyWorkAux, if_neg h0, if_neg hlt, List.take_succ_cons,
          List.mem_cons]
        rintro x (rfl | hx)
        · rfl
        · exact ih (w - l.remaining) x hx

theorem applyWorkAux_remaining_nonneg (w : ℚ) (xs : List LinkletProgress)
    (hw : 0 ≤ w) (hxs : ∀ l ∈ xs, 0 ≤ l.remaining) :
    ∀ l ∈ (applyWorkAux w xs).1, 0 ≤ l.remaining := by
  induction xs generalizing w with
  | nil => simp [applyWorkAux]
  | cons l rest ih =>
    by_cases h0 : w ≤ 0
    · simpa [applyWorkAux, h0] using hxs
    · push_neg at h0
      by_cases hlt : w < l.remaining
      · simp only [applyWorkAux, if_neg (not_le.mpr h0), if_pos hlt, List.mem_cons]
        rintro x (rfl | hx)
        · dsimp only; linarith
        · exact hxs x (List.mem_cons_of_mem _ hx)
      · simp only [applyWorkAux, if_neg (not_le.mpr h0), if_neg hlt, List.mem_cons]
        rintro x (rfl | hx)
        · exact le_refl 0
        · exact ih (w - l.remaining) (by push_neg at hlt; linarith)
            (fun y hy => hxs y (List.mem_cons_of_mem _ hy)) x hx

theorem applyWorkAux_remSum_le (w : ℚ) (xs : List LinkletProgress)
    (hw : 0 ≤ w) (hxs : ∀ l ∈ xs, 0 ≤ l.remaining) :
    (((applyWorkAux w xs).1.drop (applyWorkAux w xs).2).map
        LinkletProgress.remaining).sum
      ≤ (xs.map LinkletProgress.remaining).sum := by
  induction xs generalizing w with
  | nil => simp [applyWorkAux]
  | cons l rest ih =>
    by_cases h0 : w ≤ 0
    · simp [applyWorkAux, h0]
    · push_neg at h0
      by_cases hlt : w < l.remaining
      · simp only [applyWorkAux, if_neg (not_le.mpr h0), if_pos hlt,
          List.drop_zero, List.map_cons, List.sum_cons]
        linarith
      · have hrem : 0 ≤ l.remaining := hxs l (List.mem_cons_self l rest)
        simp only [applyWorkAux, if_neg (not_le.mpr h0), if_neg hlt,
          List.drop_succ_cons, List.map_cons, List.sum_cons]
        have := ih (w - l.remaining) (by push_neg at hlt; linarith)
          (fun y hy => hxs y (List.mem_cons_of_mem _ hy))
        linarith

theorem applyWorkAux_add (xs : List LinkletProgress) :
    ∀ w1 w2 : ℚ, 0 ≤ w1 → 0 ≤ w2 →
    applyWorkAux (w1 + w2) xs =
      ((applyWorkAux w1 xs).1.take (applyWorkAux w1 xs).2
          ++ (applyWorkAux w2
              ((applyWorkAux w1 xs).1.drop (applyWorkAux w1 xs).2)).1,
        (applyWorkAux w1 xs).2
          + (applyWorkAux w2
              ((applyWorkAux w1 xs).1.drop (applyWorkAux w1 xs).2)).2) := by
  induction xs with
  | nil =>
    intro w1 w2 h1 h2
    simp [applyWorkAux]
  | cons l rest ih =>
    intro w1 w2 h1 h2
    by_cases hw1 : w1 ≤ 0
    · have hz : w1 = 0 := le_antisymm hw1 h1
      subst hz
      rw [applyWorkAux_nonpos 0 (l :: rest) le_rfl]
      simp
    · push_neg at hw1
      by_cases hlt : w1 < l.remaining
      · have hrw : applyWorkAux w1 (l :: rest)
            = ({ l with remaining := l.remaining - w1 } :: rest, 0) := by
          simp [applyWorkAux, if_neg (not_le.mpr hw1), if_pos hlt]
        rw [hrw]
        simp only [List.take_zero, List.drop_zero, List.nil_append, Nat.zero_add]
        by_cases hw2 : w2 ≤ 0
        · have hz : w2 = 0 := le_antisymm hw2 h2
          subst hz
          rw [applyWorkAux_nonpos 0 _ le_rfl, add_zero]
          exact hrw
        · push_neg at hw2
          by_cases hlt2 : w1 + w2 < l.remaining
          · have hL : applyWorkAux (w1 + w2) (l :: rest)
                = ({ l with remaining := l.remaining - (w1 + w2) } :: rest, 0) := by
              simp [applyWorkAux, if_neg (not_le.mpr (by linarith : (0:ℚ) < w1 + w2)),
                if_pos hlt2]
            have hR : applyWorkAux w2 ({ l with remaining := l.remaining - w1 } :: rest)
                = ({ l with remaining := l.remaining - w1 - w2 } :: rest, 0) := by
              have hcond : w2 < ({ l with remaining := l.remaining - w1 } :
                  LinkletProgress).remaining := by
                show w2 < l.remaining - w1
                linarith
              simp [applyWorkAux, if_neg (not_le.mpr hw2), if_pos hcond]
            rw [hL, hR, Prod.mk.injEq]
            refine ⟨?_, rfl⟩
            simp [sub_sub]
          · have hL : applyWorkAux (w1 + w2) (l :: rest)
                = ({ l with remaining := 0 }
                      :: (applyWorkAux (w1 + w2 - l.remaining) rest).1,
                   (applyWorkAux (w1 + w2 - l.remaining) rest).2 + 1) := by
              simp [applyWorkAux, if_neg (not_le.mpr (by linarith : (0:ℚ) < w1 + w2)),
                if_neg hlt2]
            have hR : applyWorkAux w2 ({ l with remaining := l.remaining - w1 } :: rest)
                = ({ l with remaining := 0 }
                      :: (applyWorkAux (w2 - (l.remaining - w1)) rest).1,
                   (applyWorkAux (w2 - (l.remaining - w1)) rest).2 + 1) := by
              have hcond : ¬ w2 < ({ l with remaining := l.remaining - w1 } :
                  LinkletProgress).remaining := by
                push_neg at hlt2 ⊢
                show l.remaining - w1 ≤ w2
                linarith
              simp [applyWorkAux, if_neg (not_le.mpr hw2), if_neg hcond]
            rw [hL, hR, show w1 + w2 - l.remaining = w2 - (l.remaining - w1) from by ring]
      · push_neg at hlt
        have hrw : applyWorkAux w1 (l :: rest)
            = ({ l with remaining := 0 } :: (applyWorkAux (w1 - l.remaining) rest).1,
               (applyWorkAux (w1 - l.remaining) rest).2 + 1) := by
          simp [applyWorkAux, if_neg (not_le.mpr hw1), if_neg (not_lt.mpr hlt)]
        have hL : applyWorkAux (w1 + w2) (l :: rest)
            = ({ l with remaining := 0 }
                  :: (applyWorkAux (w1 + w2 - l.remaining) rest).1,
               (applyWorkAux (w1 + w2 - l.remaining) rest).2 + 1) := by
          simp [applyWorkAux, if_neg (not_le.mpr (by linarith : (0:ℚ) < w1 + w2)),
            if_neg (by push_neg; linarith : ¬ w1 + w2 < l.remaining)]
        rw [hrw, hL,
          show w1 + w2 - l.remaining = (w1 - l.remaining) + w2 from by ring,
          ih (w1 - l.remaining) w2 (by linarith) h2]
        simp only [List.take_succ_cons, List.drop_succ_cons, List.cons_append,
          Prod.mk.injEq]
        exact ⟨trivial, by omega⟩

theorem take_append_of_length {α : Type} (t ys : List α) (i n : ℕ)
    (h : t.length = i) : (t ++ ys).take (i + n) = t ++ ys.take n := by
  subst h
  exact List.take_append n

theorem drop_append_of_length {α : Type} (t ys : List α) (i n : ℕ)
    (h : t.length = i) : (t ++ ys).drop (i + n) = ys.drop n := by
  subst h
  exact List.drop_append n

theorem apply_work_def (a : ActiveJob) (w : ℚ) :
    a.apply_work w =
      ⟨a.job,
       a.linklets.take a.current_index
         ++ (applyWorkAux w (a.linklets.drop a.current_index)).1,
       a.current_index + (applyWorkAux w (a.linklets.drop a.current_index)).2,
       a.started_at⟩ := rfl

theorem apply_work_zero (a : ActiveJob) : a.apply_work 0 = a := by
  rw [apply_work_def, applyWorkAux_nonpos 0 _ le_rfl]
  simp

theorem applyWorkAux_nil (w : ℚ) : applyWorkAux w [] = ([], 0) := rfl

theorem apply_work_past_end (a : ActiveJob) (w : ℚ)
    (h : a.linklets.length ≤ a.current_index) : a.apply_work w = a := by
  rw [apply_work_def, List.drop_eq_nil_of_le h, applyWorkAux_nil]
  simp [List.take_of_length_le h]

theorem apply_work_add (a : ActiveJob) (w1 w2 : ℚ) (h1 : 0 ≤ w1) (h2 : 0 ≤ w2) :
    (a.apply_work w1).apply_work w2 = a.apply_work (w1 + w2) := by
  by_cases hidx : a.linklets.length ≤ a.current_index
  · rw [apply_work_past_end a w1 hidx, apply_work_past_end a w2 hidx,
      apply_work_past_end a (w1 + w2) hidx]
  · push_neg at hidx
    have hlen : (a.linklets.take a.current_index).length = a.current_index := by
      simp [List.length_take, Nat.min_eq_left (le_of_lt hidx)]
    rw [apply_work_def a w1, apply_work_def, apply_work_def]
    dsimp only
    rw [take_append_of_length _ _ _ _ hlen, drop_append_of_length _ _ _ _ hlen,
      applyWorkAux_add (a.linklets.drop a.current_index) w1 w2 h1 h2]
    dsimp only
    rw [List.append_assoc, Nat.add_assoc]

theorem foldl_apply_work (ws : List ℚ) (hws : ∀ w ∈ ws, 0 ≤ w) (a : ActiveJob) :
    ws.foldl ActiveJob.apply_work a = a.apply_work ws.sum := by
  induction ws generalizing a with
  | nil => simpa using (apply_work_zero a).symm
  | cons w rest ih =>
    rw [List.foldl_cons, ih (fun x hx => hws x (List.mem_cons_of_mem _ hx)),
      List.sum_cons,
      apply_work_add a w rest.sum (hws w (List.mem_cons_self w rest))
        (List.sum_nonneg (fun x hx => hws x (List.mem_cons_of_mem _ hx)))]

/-- Linklets strictly before the cursor are fully worked off (remaining 0) —
the structural invariant of the active-job state machine. -/
def ZeroedBeforeCursor (a : ActiveJob) : Prop :=
  ∀ l ∈ a.linklets.take a.current_index, l.remaining = 0

theorem zeroedBeforeCursor_apply_work (a : ActiveJob) (w : ℚ)
    (h : ZeroedBeforeCursor a) : ZeroedBeforeCursor (a.apply_work w) := by
  by_cases hidx : a.linklets.length ≤ a.current_index
  · rw [apply_work_past_end a w hidx]
    exact h
  · push_neg at hidx
    have hlen : (a.linklets.take a.current_index).length = a.current_index := by
      simp [List.length_take, Nat.min_eq_left (le_of_lt hidx)]
    intro l hl
    rw [apply_work_def] at hl
    dsimp only at hl
    rw [take_append_of_length _ _ _ _ hlen] at hl
    rcases List.mem_append.mp hl with h1 | h2
    · exact h l h1
    · exact applyWorkAux_zeroed w (a.linklets.drop a.current_index) l h2

theorem complete_remaining_work_zero (a : ActiveJob) (h : ZeroedBeforeCursor a)
    (hc : a.is_complete = true) : a.remaining_work = 0 := by
  have hlen : a.linklets.length ≤ a.current_index := by
    simpa [ActiveJob.is_complete] using hc
  unfold ZeroedBeforeCursor at h
  rw [List.take_of_length_le hlen] at h
  unfold ActiveJob.remaining_work
  apply List.sum_eq_zero
  intro x hx
  obtain ⟨l, hl, rfl⟩ := List.mem_map.mp hx
  exact h l hl

/-- C4: on a freshly accepted contract, applying a sequence of non-negative
work amounts yields exactly the state of applying their sum in one call
(split invariance), and whenever the contract has reached completion the
total work consumed (total difficulty minus total remaining) equals the
aggregate difficulty exactly. -/
theorem C4_apply_work_split_invariant (job : MiningJob) (now : ℚ) (ws : List ℚ)
    (hws : ∀ w ∈ ws, 0 ≤ w) :
    ws.foldl ActiveJob.apply_work (ActiveJob.new job now)
        = (ActiveJob.new job now).apply_work ws.sum ∧
      ((ws.foldl ActiveJob.apply_work (ActiveJob.new job now)).is_complete = true →
        (ws.foldl ActiveJob.apply_work (ActiveJob.new job now)).totalDifficulty
            - (ws.foldl ActiveJob.apply_work (ActiveJob.new job now)).remaining_work
          = (ws.foldl ActiveJob.apply_work (ActiveJob.new job now)).totalDifficulty) := by
  have hfold := foldl_apply_work ws hws (ActiveJob.new job now)
  refine ⟨hfold, fun hc => ?_⟩
  have hz : ZeroedBeforeCursor (ActiveJob.new job now) := by
    intro l hl
    simp [ActiveJob.new] at hl
  have hz2 : ZeroedBeforeCursor (ws.foldl ActiveJob.apply_work (ActiveJob.new job now)) := by
    rw [hfold]
    exact zeroedBeforeCursor_apply_work _ _ hz
  rw [complete_remaining_work_zero _ hz2 hc, sub_zero]

/-- A concrete three-cell job used by the witnesses. -/
def sampleJob : MiningJob :=
  { name := "Fractured Segment", rows := 1, cols := 3, difficulty := 10,
    payout_chain := 1, linklet_difficulties := [2, 3, 5], market_impact := 0,
    lore := "sample lore" }

/-- Witness for C4: splitting 10 units of work as 4 then 6 on a fresh
three-cell contract. -/
theorem C4_apply_work_split_invariant_witness :
    (∀ w ∈ [(4 : ℚ), 6], 0 ≤ w) ∧
    ([(4 : ℚ), 6].foldl ActiveJob.apply_work (ActiveJob.new sampleJob 0)
        = (ActiveJob.new sampleJob 0).apply_work ([(4 : ℚ), 6].sum) ∧
      (([(4 : ℚ), 6].foldl ActiveJob.apply_work (ActiveJob.new sampleJob 0)).is_complete = true →
        ([(4 : ℚ), 6].foldl ActiveJob.apply_work (ActiveJob.new sampleJob 0)).totalDifficulty
            - ([(4 : ℚ), 6].foldl ActiveJob.apply_work (ActiveJob.new sampleJob 0)).remaining_work
          = ([(4 : ℚ), 6].foldl ActiveJob.apply_work (ActiveJob.new sampleJob 0)).totalDifficulty)) :=
  ⟨by intro w hw; fin_cases hw <;> norm_num,
   C4_apply_work_split_invariant sampleJob 0 [4, 6]
     (by intro w hw; fin_cases hw <;> norm_num)⟩

theorem fclamp_mono (x y lo hi : ℚ) (h : x ≤ y) : fclamp x lo hi ≤ fclamp y lo hi :=
  min_le_min (max_le_max h le_rfl) le_rfl

theorem totalDifficulty_apply_work (a : ActiveJob) (w : ℚ) :
    (a.apply_work w).totalDifficulty = a.totalDifficulty := by
  unfold ActiveJob.totalDifficulty
  rw [apply_work_def]
  dsimp only
  rw [List.map_append, applyWorkAux_map_difficulty, ← List.map_append,
    List.take_append_drop]

theorem length_apply_work (a : ActiveJob) (w : ℚ) :
    (a.apply_work w).linklets.length = a.linklets.length := by
  rw [apply_work_def]
  dsimp only
  rw [List.length_append, applyWorkAux_length, ← List.length_append,
    List.take_append_drop]

/-- Every linklet has non-negative remaining work — holds on a fresh job with
non-negative difficulties and is preserved by non-negative work application. -/
def RemNonneg (a : ActiveJob) : Prop := ∀ l ∈ a.linklets, 0 ≤ l.remaining

theorem remNonneg_apply_work (a : ActiveJob) (w : ℚ) (hw : 0 ≤ w)
    (h : RemNonneg a) : RemNonneg (a.apply_work w) := by
  intro l hl
  rw [apply_work_def] at hl
  dsimp only at hl
  rcases List.mem_append.mp hl with h1 | h2
  · exact h l (List.mem_of_mem_take h1)
  · exact applyWorkAux_remaining_nonneg w _ hw
      (fun y hy => h y (List.mem_of_mem_drop hy)) l h2

theorem remainingFromCursor_apply_work_le (a : ActiveJob) (w : ℚ) (hw : 0 ≤ w)
    (h : RemNonneg a) :
    (a.apply_work w).remainingFromCursor ≤ a.remainingFromCursor := by
  by_cases hidx : a.linklets.length ≤ a.current_index
  · rw [apply_work_past_end a w hidx]
  · push_neg at hidx
    have hlen : (a.linklets.take a.current_index).length = a.current_index := by
      simp [List.length_take, Nat.min_eq_left (le_of_lt hidx)]
    unfold ActiveJob.remainingFromCursor
    rw [apply_work_def]
    dsimp only
    rw [drop_append_of_length _ _ _ _ hlen]
    exact applyWorkAux_remSum_le w (a.linklets.drop a.current_index) hw
      (fun y hy => h y (List.mem_of_mem_drop hy))

theorem completion_ratio_mono_step (a : ActiveJob) (w : ℚ) (hw : 0 ≤ w)
    (hrem : RemNonneg a) (hT : 0 < a.totalDifficulty) :
    a.completion_ratio ≤ (a.apply_work w).completion_ratio := by
  have hne : a.linklets ≠ [] := by
    intro hnil
    rw [ActiveJob.totalDifficulty, hnil] at hT
    simp at hT
  have hne2 : (a.apply_work w).linklets ≠ [] := by
    intro hnil
    have := length_apply_work a w
    rw [hnil] at this
    exact hne (List.eq_nil_of_length_eq_zero this.symm)
  unfold ActiveJob.completion_ratio
  rw [if_neg (by simpa [List.isEmpty_iff] using hne),
    if_neg (by simpa [List.isEmpty_iff] using hne2),
    totalDifficulty_apply_work]
  apply fclamp_mono
  apply (div_le_div_iff_of_pos_right hT).mpr
  have := remainingFromCursor_apply_work_le a w hw hrem
  linarith

theorem completion_ratio_mono_fold (a : ActiveJob) (ws : List ℚ)
    (hws : ∀ w ∈ ws, 0 ≤ w) (hrem : RemNonneg a) (hT : 0 < a.totalDifficulty) :
    a.completion_ratio ≤ (ws.foldl ActiveJob.apply_work a).completion_ratio := by
  induction ws generalizing a with
  | nil => simp
  | cons w rest ih =>
    rw [List.foldl_cons]
    have hw := hws w (List.mem_cons_self w rest)
    refine le_trans (completion_ratio_mono_step a w hw hrem hT) ?_
    exact ih (a.apply_work w) (fun x hx => hws x (List.mem_cons_of_mem _ hx))
      (remNonneg_apply_work a w hw hrem)
      (by rw [totalDifficulty_apply_work]; exact hT)

theorem completion_ratio_at_complete (a : ActiveJob) (hne : a.linklets ≠ [])
    (hT : 0 < a.totalDifficulty) (hc : a.is_complete = true) :
    a.completion_ratio = 1 := by
  have hlen : a.linklets.length ≤ a.current_index := by
    simpa [ActiveJob.is_complete] using hc
  unfold ActiveJob.completion_ratio
  rw [if_neg (by simpa [List.isEmpty_iff] using hne)]
  unfold ActiveJob.remainingFromCursor
  rw [List.drop_eq_nil_of_le hlen]
  simp only [List.map_nil, List.sum_nil, sub_zero]
  rw [div_self (ne_of_gt hT)]
  unfold fclamp
  norm_num

/-- C7: `completion_ratio` equals the clamped formula
`(total - remaining) / total` on a contract with cells, returns 0 for a
contract with zero cells, is monotonically non-decreasing across every
sequence of non-negative `apply_work` calls, and equals exactly 1 when the
contract is complete. -/
theorem C7_completion_ratio_spec (a : ActiveJob) (ws : List ℚ)
    (hrem : RemNonneg a) (hws : ∀ w ∈ ws, 0 ≤ w) :
    (a.linklets = [] → a.completion_ratio = 0) ∧
    (a.linklets ≠ [] →
      a.completion_ratio
        = fclamp ((a.totalDifficulty - a.remainingFromCursor) / a.totalDifficulty) 0 1) ∧
    (0 < a.totalDifficulty →
      a.completion_ratio ≤ (ws.foldl ActiveJob.apply_work a).completion_ratio) ∧
    (a.linklets ≠ [] → 0 < a.totalDifficulty → a.is_complete = true →
      a.completion_ratio = 1) := by
  refine ⟨fun h => ?_, fun h => ?_, fun hT => ?_, fun hne hT hc => ?_⟩
  · unfold ActiveJob.completion_ratio
    rw [if_pos (by simpa [List.isEmpty_iff] using h)]
  · unfold ActiveJob.completion_ratio
    rw [if_neg (by simpa [List.isEmpty_iff] using h)]
  · exact completion_ratio_mono_fold a ws hws hrem hT
  · exact completion_ratio_at_complete a hne hT hc

/-- Witness for C7 on a fresh three-cell contract and one work step. -/
theorem C7_completion_ratio_spec_witness :
    (RemNonneg (ActiveJob.new sampleJob 0)) ∧ (∀ w ∈ [(4 : ℚ)], 0 ≤ w) ∧
    (((ActiveJob.new sampleJob 0).linklets = [] →
        (ActiveJob.new sampleJob 0).completion_ratio = 0) ∧
      ((ActiveJob.new sampleJob 0).linklets ≠ [] →
        (ActiveJob.new sampleJob 0).completion_ratio
          = fclamp (((ActiveJob.new sampleJob 0).totalDifficulty
                - (ActiveJob.new sampleJob 0).remainingFromCursor)
              / (ActiveJob.new sampleJob 0).totalDifficulty) 0 1) ∧
      (0 < (ActiveJob.new sampleJob 0).totalDifficulty →
        (ActiveJob.new sampleJob 0).completion_ratio
          ≤ ([(4 : ℚ)].foldl ActiveJob.apply_work (ActiveJob.new sampleJob 0)).completion_ratio) ∧
      ((ActiveJob.new sampleJob 0).linklets ≠ [] →
        0 < (ActiveJob.new sampleJob 0).totalDifficulty →
        (ActiveJob.new sampleJob 0).is_complete = true →
        (ActiveJob.new sampleJob 0).completion_ratio = 1)) :=
  ⟨by intro l hl; fin_cases hl <;> norm_num [LinkletProgress.new],
   by intro w hw; fin_cases hw <;> norm_num,
   C7_completion_ratio_spec (ActiveJob.new sampleJob 0) [4]
     (by intro l hl; fin_cases hl <;> norm_num [LinkletProgress.new])
     (by intro w hw; fin_cases hw <;> norm_num)⟩

/-- Struct `TickerState` of src/app.rs; durations are rational seconds. -/
structure TickerState where
  price : ℚ
  last_delta : ℚ
  history : List ℚ
  time_since_update : ℚ
  update_interval : ℚ
deriving DecidableEq, Repr

/-- Method `TickerState::record_price`: push the current price and evict the
oldest entries beyond capacity 256. -/
def TickerState.record_price (t : TickerState) : TickerState :=
  let h := t.history ++ [t.price]
  { t with history := h.drop (h.length - 256) }

/-- Method `TickerState::apply_random_walk`, with the two `gen_range` draws
passed in as `drift` and `noise`. -/
def TickerState.apply_random_walk (t : TickerState) (drift noise : ℚ) : TickerState :=
  let delta := drift * 0.012 + noise * 0.006
  let new_price := max (t.price * (1 + delta)) 0.25
  ({ t with last_delta := new_price - t.price, price := new_price }).record_price

/-- Method `TickerState::apply_market_nudge`: returns the updated ticker and
the realized delta. -/
def TickerState.apply_market_nudge (t : TickerState) (impact payout_chain : ℚ) :
    TickerState × ℚ :=
  let impulse := fclamp (impact * payout_chain * 0.01) (-5) 5
  let new_price := max (t.price + impulse) 0.25
  let delta := new_price - t.price
  (({ t with price := new_price, last_delta := delta }).record_price, delta)

/-- The catch-up while loop of `TickerState::tick`: each list entry supplies
one iteration's random draws (drift, noise, next interval); the list is
assumed long enough for the loop to reach its guard. -/
def tickLoop : TickerState → List (ℚ × ℚ × ℚ) → TickerState
  | t, [] => t
  | t, c :: rest =>
    if t.update_interval ≤ t.time_since_update then
      let t1 := { t with time_since_update := t.time_since_update - t.update_interval }
      let t2 := t1.apply_random_walk c.1 c.2.1
      tickLoop { t2 with update_interval := c.2.2 } rest
    else t

/-- Method `TickerState::tick`. -/
def TickerState.tick (t : TickerState) (dt : ℚ) (choices : List (ℚ × ℚ × ℚ)) :
    TickerState :=
  tickLoop { t with time_since_update := t.time_since_update + dt } choices

/-- One price-moving event: a random-walk step or a completion nudge, with
its random draws / inputs made explicit. -/
inductive TickerStep where
  | walk (drift noise : ℚ)
  | nudge (impact payout : ℚ)
deriving DecidableEq, Repr

def applyTickerStep (t : TickerState) : TickerStep → TickerState
  | .walk drift noise => t.apply_random_walk drift noise
  | .nudge impact payout => (t.apply_market_nudge impact payout).1

/-- A walk step whose draws lie in the ranges `gen_range(-0.25..0.35)` and
`gen_range(-0.15..0.15)` of `apply_random_walk`; nudges carry arbitrary
impact and payout values. -/
def TickerStep.inConfiguredRanges : TickerStep → Prop
  | .walk drift noise => -0.25 ≤ drift ∧ drift < 0.35 ∧ -0.15 ≤ noise ∧ noise < 0.15
  | .nudge _ _ => True

theorem price_floor_apply_random_walk (t : TickerState) (drift noise : ℚ) :
    0.25 ≤ (t.apply_random_walk drift noise).price := by
  unfold TickerState.apply_random_walk TickerState.record_price
  exact le_max_right _ _

theorem price_floor_apply_market_nudge (t : TickerState) (impact payout : ℚ) :
    0.25 ≤ (t.apply_market_nudge impact payout).1.price := by
  unfold TickerState.apply_market_nudge TickerState.record_price
  exact le_max_right _ _

/-- C8: starting from any ticker whose price is at least the 0.25 floor,
after every sequence of random-walk steps (draws within their configured
ranges) and market nudges (arbitrary impact and payout) the price is still at
least 0.25. -/
theorem C8_price_never_below_floor (t : TickerState) (hp : 0.25 ≤ t.price)
    (steps : List TickerStep) (hsteps : ∀ s ∈ steps, s.inConfiguredRanges) :
    0.25 ≤ (steps.foldl applyTickerStep t).price := by
  induction steps generalizing t with
  | nil => exact hp
  | cons s rest ih =>
    rw [List.foldl_cons]
    refine ih (applyTickerStep t s) ?_ (fun x hx => hsteps x (List.mem_cons_of_mem _ hx))
    cases s with
    | walk drift noise => exact price_floor_apply_random_walk t drift noise
    | nudge impact payout => exact price_floor_apply_market_nudge t impact payout

/-- Witness for C8: a concrete ticker at price 32 through one walk and one
nudge. -/
theorem C8_price_never_below_floor_witness :
    (0.25 ≤ (⟨32, 0, [32], 0, 10⟩ : TickerState).price) ∧
    (∀ s ∈ [TickerStep.walk 0 0, TickerStep.nudge 1 1], s.inConfiguredRanges) ∧
    0.25 ≤ (([TickerStep.walk 0 0, TickerStep.nudge 1 1]).foldl applyTickerStep
        (⟨32, 0, [32], 0, 10⟩ : TickerState)).price :=
  ⟨by norm_num,
   by intro s hs; fin_cases hs <;> simp [TickerStep.inConfiguredRanges] <;> norm_num,
   C8_price_never_below_floor _ (by norm_num) _
     (by intro s hs; fin_cases hs <;> simp [TickerStep.inConfiguredRanges] <;> norm_num)⟩

/-- Struct `HashpowerTier` of src/app.rs. -/
structure HashpowerTier where
  name : String
  base_cost : ℚ
  cost_multiplier : ℚ
  power : ℚ
  owned : ℕ
deriving DecidableEq, Repr

/-- Method `HashpowerTier::cost_for_next`:
`base_cost * cost_multiplier.powi(owned)`. -/
def HashpowerTier.cost_for_next (t : HashpowerTier) : ℚ :=
  t.base_cost * t.cost_multiplier ^ t.owned

/-- Method `HashpowerTier::total_power`. -/
def HashpowerTier.total_power (t : HashpowerTier) : ℚ := t.power * t.owned

/-- Struct `HashpowerState` of src/app.rs. -/
structure HashpowerState where
  tiers : List HashpowerTier
  selected : ℕ
deriving DecidableEq, Repr

/-- The static tier catalog of `impl Default for HashpowerState`. -/
def hashpowerDefaultTiers : List HashpowerTier :=
  [{ name := "Processor", base_cost := 75, cost_multiplier := 1.18, power := 1, owned := 0 },
   { name := "Server", base_cost := 420, cost_multiplier := 1.20, power := 4, owned := 0 },
   { name := "Rack", base_cost := 2100, cost_multiplier := 1.22, power := 18, owned := 0 },
   { name := "Lab", base_cost := 9500, cost_multiplier := 1.24, power := 65, owned := 0 },
   { name := "Supercomputer", base_cost := 38000, cost_multiplier := 1.26, power := 220, owned := 0 },
   { name := "Datacenter", base_cost := 150000, cost_multiplier := 1.28, power := 800, owned := 0 },
   { name := "Quantum Array", base_cost := 620000, cost_multiplier := 1.31, power := 3000, owned := 0 },
   { name := "Orbital Node", base_cost := 2400000, cost_multiplier := 1.34, power := 10500, owned := 0 },
   { name := "Darknet Farm", base_cost := 8600000, cost_multiplier := 1.38, power := 34000, owned := 0 },
   { name := "Foundry Core", base_cost := 28000000, cost_multiplier := 1.42, power := 120000, owned := 0 }]

/-- `impl Default for HashpowerState`. -/
def HashpowerState.default : HashpowerState :=
  { tiers := hashpowerDefaultTiers, selected := 0 }

/-- Method `HashpowerState::total_power`. -/
def HashpowerState.total_power (h : HashpowerState) : ℚ :=
  (h.tiers.map HashpowerTier.total_power).sum

/-- Method `HashpowerState::owned_counts`. -/
def HashpowerState.owned_counts (h : HashpowerState) : List ℕ :=
  h.tiers.map HashpowerTier.owned

/-- The zip-then-zero-fill loop of `HashpowerState::apply_owned`: the first
`min` prefix is overwritten from the saved counts, tiers beyond the saved
list are zeroed, surplus saved counts are ignored. -/
def setOwnedList : List HashpowerTier → List ℕ → List HashpowerTier
  | [], _ => []
  | t :: ts, [] => { t with owned := 0 } :: setOwnedList ts []
  | t :: ts, o :: os => { t with owned := o } :: setOwnedList ts os

/-- Method `HashpowerState::apply_owned`. -/
def HashpowerState.apply_owned (h : HashpowerState) (owned : List ℕ)
    (selected : ℕ) : HashpowerState :=
  let tiers := setOwnedList h.tiers owned
  { tiers := tiers,
    selected := if tiers.isEmpty then 0 else min selected (tiers.length - 1) }

/-- Method `HashpowerState::purchase_selected`: returns the updated tier
table, the updated bank and the cost paid. The Rust code indexes
`self.tiers[self.selected]` directly (panicking out of bounds); the model
returns a no-op for an out-of-range cursor and the theorems only speak about
in-range cursors. -/
def HashpowerState.purchase_selected (h : HashpowerState) (bank : BankState) :
    HashpowerState × BankState × Option ℚ :=
  match h.tiers[h.selected]? with
  | none => (h, bank, none)
  | some tier =>
    let cost := tier.cost_for_next
    if cost ≤ bank.credits_balance then
      ({ h with tiers := h.tiers.set h.selected { tier with owned := tier.owned + 1 } },
       { bank with credits_balance := bank.credits_balance - cost },
       some cost)
    else (h, bank, none)

/-- C6: for the selected tier, the quoted cost is `base * multiplier ^ owned`;
a purchase with credits below that cost is rejected with no state change, and
a purchase with credits at least that cost succeeds, deducting exactly the
cost, incrementing the owned count by one and leaving everything else (the
chain balance included) unchanged, in one step. -/
theorem C6_purchase_contract (s : HashpowerState) (b : BankState)
    (tier : HashpowerTier) (hget : s.tiers[s.selected]? = some tier) :
    (tier.cost_for_next = tier.base_cost * tier.cost_multiplier ^ tier.owned) ∧
    (b.credits_balance < tier.cost_for_next →
      s.purchase_selected b = (s, b, none)) ∧
    (tier.cost_for_next ≤ b.credits_balance →
      s.purchase_selected b =
        ({ s with tiers := s.tiers.set s.selected { tier with owned := tier.owned + 1 } },
         { b with credits_balance := b.credits_balance - tier.cost_for_next },
         some tier.cost_for_next)) := by
  refine ⟨rfl, fun hlt => ?_, fun hge => ?_⟩
  · unfold HashpowerState.purchase_selected
    rw [hget]
    dsimp only
    rw [if_neg (not_le.mpr hlt)]
  · unfold HashpowerState.purchase_selected
    rw [hget]
    dsimp only
    rw [if_pos hge]

/-- The first catalog entry, for the C6 witness. -/
def procTier : HashpowerTier :=
  { name := "Processor", base_cost := 75, cost_multiplier := 1.18, power := 1, owned := 0 }

/-- Witness for C6: buying the first tier from the default state with the
initial 100 credits. -/
theorem C6_purchase_contract_witness :
    HashpowerState.default.tiers[HashpowerState.default.selected]? = some procTier ∧
    ((procTier.cost_for_next
        = procTier.base_cost * procTier.cost_multiplier ^ procTier.owned) ∧
      (BankState.default.credits_balance < procTier.cost_for_next →
        HashpowerState.default.purchase_selected BankState.default
          = (HashpowerState.default, BankState.default, none)) ∧
      (procTier.cost_for_next ≤ BankState.default.credits_balance →
        HashpowerState.default.purchase_selected BankState.default =
          ({ HashpowerState.default with
              tiers := HashpowerState.default.tiers.set HashpowerState.default.selected
                { procTier with owned := procTier.owned + 1 } },
           { BankState.default with
              credits_balance := BankState.default.credits_balance - procTier.cost_for_next },
           some procTier.cost_for_next))) :=
  ⟨rfl, C6_purchase_contract HashpowerState.default BankState.default procTier rfl⟩

/-- Struct `ActiveJobSave` of src/app.rs. -/
structure ActiveJobSave where
  job : MiningJob
  linklets : List LinkletProgress
  current_index : ℕ
  elapsed_secs : ℚ
deriving DecidableEq, Repr

/-- Rust `Instant::checked_sub` on the model: instants are seconds since the
monotonic clock's epoch and cannot precede it, so subtraction fails when the
stored duration exceeds the current instant. -/
def instantCheckedSub (now elapsed : ℚ) : Option ℚ :=
  if elapsed ≤ now then some (now - elapsed) else none

/-- Method `ActiveJob::from_save`, with `Instant::now()` passed in as `now`. -/
def ActiveJob.from_save (now : ℚ) (save : ActiveJobSave) : ActiveJob :=
  let elapsed := max save.elapsed_secs 0
  let started_at := (instantCheckedSub now elapsed).getD now
  { job := save.job, linklets := save.linklets,
    current_index := min save.current_index save.linklets.length,
    started_at := started_at }

/-- A stored active job whose elapsed time exceeds the restoring process's
clock reading, for the C9 counterexample. -/
def staleJobSave : ActiveJobSave :=
  { job := sampleJob, linklets := [], current_index := 0, elapsed_secs := 10 }

/-- C9 counterexample: restoring at monotonic time 0 a record with 10 stored
elapsed seconds cannot place the start 10 seconds before the clock's epoch;
`checked_sub` fails and the code falls back to `now`, so the reconstructed
start instant does not equal current time minus stored elapsed. -/
theorem C9_counterexample_epoch_underflow :
    (ActiveJob.from_save 0 staleJobSave).started_at ≠ (0 : ℚ) - 10 := by
  norm_num [ActiveJob.from_save, staleJobSave, instantCheckedSub]

/-- C9 amended: the reconstructed start instant equals current time minus the
(negative-clamped) stored elapsed duration whenever that instant is
representable on the monotonic clock, and the current time otherwise; it is
never in the future; a negative stored elapsed is treated as zero; and the
cursor is clamped to the stored linklet-sequence length. -/
theorem C9_amended_from_save_defensive (now : ℚ) (hnow : 0 ≤ now)
    (save : ActiveJobSave) :
    ((ActiveJob.from_save now save).started_at
        = if max save.elapsed_secs 0 ≤ now then now - max save.elapsed_secs 0 else now) ∧
    (ActiveJob.from_save now save).started_at ≤ now ∧
    (save.elapsed_secs < 0 → (ActiveJob.from_save now save).started_at = now) ∧
    (ActiveJob.from_save now save).current_index
      = min save.current_index save.linklets.length := by
  refine ⟨?_, ?_, fun hneg => ?_, rfl⟩
  · unfold ActiveJob.from_save instantCheckedSub
    by_cases h : max save.elapsed_secs 0 ≤ now
    · simp only [if_pos h, Option.getD_some]
    · simp only [if_neg h, Option.getD_none]
  · unfold ActiveJob.from_save instantCheckedSub
    by_cases h : max save.elapsed_secs 0 ≤ now
    · simp only [if_pos h, Option.getD_some]
      have : 0 ≤ max save.elapsed_secs 0 := le_max_right _ _
      linarith
    · simp only [if_neg h, Option.getD_none, le_refl]
  · unfold ActiveJob.from_save instantCheckedSub
    have hmax : max save.elapsed_secs 0 = 0 := max_eq_right (le_of_lt hneg)
    rw [hmax]
    simp only [if_pos hnow, Option.getD_some, sub_zero]

/-- Witness for the amended C9 statement at monotonic time 5 and the stale
record. -/
theorem C9_amended_from_save_defensive_witness :
    (0 ≤ (5 : ℚ)) ∧
    (((ActiveJob.from_save 5 staleJobSave).started_at
        = if max staleJobSave.elapsed_secs 0 ≤ 5 then 5 - max staleJobSave.elapsed_secs 0 else 5) ∧
      (ActiveJob.from_save 5 staleJobSave).started_at ≤ 5 ∧
      (staleJobSave.elapsed_secs < 0 → (ActiveJob.from_save 5 staleJobSave).started_at = 5) ∧
      (ActiveJob.from_save 5 staleJobSave).current_index
        = min staleJobSave.current_index staleJobSave.linklets.length) :=
  ⟨by norm_num, C9_amended_from_save_defensive 5 (by norm_num) staleJobSave⟩

/-- Enum `PaneFocus` of src/app.rs. -/
inductive PaneFocus where
  | Mining
  | Hashpower
  | Bank
  | Ledger
deriving DecidableEq, Repr

/-- Struct `CompletedJob`; `finished_at` is `Utc::now()` in epoch
milliseconds, `duration` the elapsed seconds since acceptance. -/
structure CompletedJob where
  job : MiningJob
  finished_at : ℤ
  duration : ℚ
deriving DecidableEq, Repr

/-- Method `ActiveJob::finish`, with the two clock readings passed in. -/
def ActiveJob.finish (a : ActiveJob) (nowUtcMs : ℤ) (nowInstant : ℚ) : CompletedJob :=
  { job := a.job, finished_at := nowUtcMs, duration := nowInstant - a.started_at }

/-- Struct `MiningState` of src/app.rs. -/
structure MiningState where
  available_jobs : List MiningJob
  selected_job : ℕ
  active_job : Option ActiveJob
deriving DecidableEq, Repr

/-- Method `MiningState::apply_work`: returns the updated state and the
completed job when completion occurred this call. -/
def MiningState.apply_work (m : MiningState) (work : ℚ) (nowUtcMs : ℤ)
    (nowInstant : ℚ) : MiningState × Option CompletedJob :=
  match m.active_job with
  | none => (m, none)
  | some active =>
    let active2 := active.apply_work work
    if active2.is_complete then
      ({ m with active_job := none }, some (active2.finish nowUtcMs nowInstant))
    else
      ({ m with active_job := some active2 }, none)

/-- The replenish loop of `MiningState::replenish_pool`; `oracle` supplies
the jobs `generate_job` would draw and is assumed long enough to refill the
pool to `JOB_POOL_SIZE`. -/
def MiningState.replenish_pool (m : MiningState) (oracle : List MiningJob) :
    MiningState :=
  { m with available_jobs :=
      m.available_jobs ++ oracle.take (JOB_POOL_SIZE - m.available_jobs.length) }

/-- Struct `MiningSave` of src/app.rs. -/
structure MiningSave where
  available_jobs : List MiningJob
  selected_job : ℕ
  active_job : Option ActiveJobSave
deriving DecidableEq, Repr

/-- Method `ActiveJobSave::from_active`, with `Instant::now()` as `now`. -/
def ActiveJobSave.from_active (now : ℚ) (a : ActiveJob) : ActiveJobSave :=
  { job := a.job, linklets := a.linklets, current_index := a.current_index,
    elapsed_secs := now - a.started_at }

/-- Method `MiningState::to_save`. -/
def MiningState.to_save (m : MiningState) (now : ℚ) : MiningSave :=
  { available_jobs := m.available_jobs, selected_job := m.selected_job,
    active_job := m.active_job.map (ActiveJobSave.from_active now) }

/-- Method `MiningState::apply_save`. -/
def MiningState.apply_save (m : MiningState) (save : MiningSave) (now : ℚ) :
    MiningState :=
  let available_jobs := save.available_jobs
  { available_jobs := available_jobs,
    selected_job := if available_jobs.isEmpty then 0
      else min save.selected_job (available_jobs.length - 1),
    active_job := save.active_job.map (ActiveJob.from_save now) }

/-- Struct `LedgerEntry`; `finished_at` (a `DateTime<Utc>`) is modelled in
epoch milliseconds, `duration` in seconds. -/
structure LedgerEntry where
  id : String
  name : String
  finished_at : ℤ
  difficulty : ℚ
  payout_chain : ℚ
  credits_at_completion : ℚ
  duration : ℚ
  market_impact : ℚ
deriving DecidableEq, Repr

/-- Struct `LedgerState` of src/app.rs. -/
structure LedgerState where
  entries : List LedgerEntry
  scroll : ℕ
deriving DecidableEq, Repr

/-- Method `LedgerState::add_entry` (`insert(0, entry)`). -/
def LedgerState.add_entry (s : LedgerState) (entry : LedgerEntry) : LedgerState :=
  { s with entries := entry :: s.entries }

/-- Struct `LedgerEntrySave` of src/app.rs. -/
structure LedgerEntrySave where
  id : String
  name : String
  finished_at_ms : ℤ
  difficulty : ℚ
  payout_chain : ℚ
  credits_at_completion : ℚ
  duration_secs : ℚ
  market_impact : ℚ
deriving DecidableEq, Repr

/-- Lower endpoint of chrono's representable `DateTime<Utc>` range in epoch
milliseconds (about 262000 years before the epoch). Only the order of
magnitude matters to the theorems: the simulation's own timestamps lie far
inside the range and `i64::MAX` far outside it. -/
def CHRONO_MIN_TIMESTAMP_MS : ℤ := -8334632851200000

/-- Upper endpoint of chrono's representable `DateTime<Utc>` range in epoch
milliseconds. -/
def CHRONO_MAX_TIMESTAMP_MS : ℤ := 8210266876799999

/-- Models `DateTime::<Utc>::from_timestamp_millis`: `None` outside chrono's
representable range. -/
def fromTimestampMillis (ms : ℤ) : Option ℤ :=
  if CHRONO_MIN_TIMESTAMP_MS ≤ ms ∧ ms ≤ CHRONO_MAX_TIMESTAMP_MS then some ms
  else none

/-- Method `LedgerEntrySave::from_entry`; `timestamp_millis()` is the
identity on the millisecond model. -/
def LedgerEntrySave.from_entry (e : LedgerEntry) : LedgerEntrySave :=
  { id := e.id, name := e.name, finished_at_ms := e.finished_at,
    difficulty := e.difficulty, payout_chain := e.payout_chain,
    credits_at_completion := e.credits_at_completion,
    duration_secs := e.duration, market_impact := e.market_impact }

/-- Method `LedgerEntrySave::into_entry`; `Duration::from_secs_f64` on
`duration_secs.max(0.0)` becomes the negative clamp. -/
def LedgerEntrySave.into_entry (e : LedgerEntrySave) : Except String LedgerEntry :=
  match fromTimestampMillis e.finished_at_ms with
  | none => .error "invalid timestamp in save data"
  | some finished_at =>
    .ok { id := e.id, name := e.name, finished_at := finished_at,
          difficulty := e.difficulty, payout_chain := e.payout_chain,
          credits_at_completion := e.credits_at_completion,
          duration := max e.duration_secs 0, market_impact := e.market_impact }

/-- The `collect::<Result<Vec<_>>>` over `into_entry` in `SaveData::apply`:
sequential conversion that stops at the first error. -/
def intoEntries : List LedgerEntrySave → Except String (List LedgerEntry)
  | [] => .ok []
  | e :: rest =>
    match e.into_entry with
    | .error msg => .error msg
    | .ok entry =>
      match intoEntries rest with
      | .error msg => .error msg
      | .ok entries => .ok (entry :: entries)

/-- Struct `TickerSave` of src/app.rs. -/
structure TickerSave where
  price : ℚ
  last_delta : ℚ
  history : List ℚ
  time_since_update_secs : ℚ
  update_interval_secs : ℚ
deriving DecidableEq, Repr

/-- Method `TickerState::to_save`. -/
def TickerState.to_save (t : TickerState) : TickerSave :=
  { price := t.price, last_delta := t.last_delta, history := t.history,
    time_since_update_secs := t.time_since_update,
    update_interval_secs := t.update_interval }

/-- Method `TickerState::from_save`. -/
def TickerState.from_save (save : TickerSave) : TickerState :=
  let history := if save.history.isEmpty then [save.price] else save.history
  let state : TickerState :=
    { price := save.price, last_delta := save.last_delta, history := history,
      time_since_update := max save.time_since_update_secs 0,
      update_interval :=
        fclamp save.update_interval_secs PRICE_UPDATE_MIN_SECS PRICE_UPDATE_MAX_SECS }
  if state.update_interval < state.time_since_update then
    { state with time_since_update := state.update_interval }
  else state

/-- The simulation-relevant state of struct `App`; the quit flag and the
pause-menu cursor belong to the out-of-scope UI shell. -/
structure App where
  focus : PaneFocus
  paused : Bool
  mining : MiningState
  hashpower : HashpowerState
  bank : BankState
  ledger : LedgerState
  ticker : TickerState
  messages : List String
deriving DecidableEq, Repr

/-- Method `App::push_message` (push front, trim to `MAX_MESSAGES`). -/
def pushMessage (messages : List String) (msg : String) : List String :=
  (msg :: messages).take MAX_MESSAGES

/-- The completion message `format!` of `App::on_tick`; the display-only
`{:.2}` numeric formatting is abstracted away, keeping the identifier. -/
def completionMessage (id : String) (payout credits_value : ℚ) : String :=
  id ++ " restored"

/-- Method `App::on_tick`. Randomness and clocks become arguments: `choices`
feeds the ticker's catch-up loop, `linkId` stands for the nanoid/blake3 draw
of `generate_link_id`, `newJob` and `poolOracle` for the `generate_job`
draws, and `nowUtcMs` / `nowInstant` for `Utc::now()` / `Instant::now()`. -/
def App.on_tick (app : App) (dt : ℚ) (choices : List (ℚ × ℚ × ℚ))
    (linkId : String) (newJob : MiningJob) (poolOracle : List MiningJob)
    (nowUtcMs : ℤ) (nowInstant : ℚ) : App :=
  if app.paused then app
  else
    let secs := dt
    let ticker1 := app.ticker.tick dt choices
    let power := app.hashpower.total_power
    let mres := app.mining.apply_work (power * secs) nowUtcMs nowInstant
    match mres.2 with
    | some completed =>
      let price := ticker1.price
      let credits_value := completed.job.payout_chain * price
      let id := linkId
      let messages1 := pushMessage app.messages
        (completionMessage id completed.job.payout_chain credits_value)
      let bank1 := { app.bank with
        chain_balance := app.bank.chain_balance + completed.job.payout_chain }
      let nres := ticker1.apply_market_nudge completed.job.market_impact
        completed.job.payout_chain
      let entry : LedgerEntry :=
        { id := id, name := completed.job.name, finished_at := completed.finished_at,
          difficulty := completed.job.difficulty,
          payout_chain := completed.job.payout_chain,
          credits_at_completion := credits_value, duration := completed.duration,
          market_impact := nres.2 }
      let mining1 := { mres.1 with available_jobs := mres.1.available_jobs ++ [newJob] }
      { app with mining := mining1.replenish_pool poolOracle,
                 bank := bank1,
                 ledger := app.ledger.add_entry entry,
                 ticker := nres.1,
                 messages := messages1 }
    | none =>
      { app with mining := mres.1.replenish_pool poolOracle, ticker := ticker1 }

/-- Struct `SaveData` of src/app.rs. -/
structure SaveData where
  focus : PaneFocus
  mining : MiningSave
  hashpower_owned : List ℕ
  hashpower_selected : ℕ
  bank : BankState
  ledger : List LedgerEntrySave
  ledger_scroll : ℕ
  ticker : TickerSave
  messages : List String
deriving DecidableEq, Repr

/-- Method `SaveData::from_app`, with `Instant::now()` as `now`. -/
def SaveData.from_app (app : App) (now : ℚ) : SaveData :=
  { focus := app.focus, mining := app.mining.to_save now,
    hashpower_owned := app.hashpower.owned_counts,
    hashpower_selected := app.hashpower.selected,
    bank := app.bank,
    ledger := app.ledger.entries.map LedgerEntrySave.from_entry,
    ledger_scroll := app.ledger.scroll,
    ticker := app.ticker.to_save,
    messages := app.messages }

/-- Method `SaveData::apply`. The Rust code mutates `app` field by field and
propagates the first ledger-decoding error with `?` after focus, mining,
hashpower and bank were already overwritten; the model returns the app
exactly as the mutations left it, alongside the result. -/
def SaveData.apply (s : SaveData) (app : App) (now : ℚ) : App × Except String Unit :=
  let app1 := { app with focus := s.focus }
  let app2 := { app1 with mining := app1.mining.apply_save s.mining now }
  let app3 := { app2 with
    hashpower := app2.hashpower.apply_owned s.hashpower_owned s.hashpower_selected }
  let app4 := { app3 with bank := s.bank }
  match intoEntries s.ledger with
  | .error e => (app4, .error e)
  | .ok entries =>
    let scroll := if entries.isEmpty then 0 else min s.ledger_scroll (entries.length - 1)
    let app5 := { app4 with ledger := { entries := entries, scroll := scroll } }
    let app6 := { app5 with ticker := TickerState.from_save s.ticker }
    let app7 := { app6 with messages := s.messages.take MAX_MESSAGES }
    (app7, .ok ())

/-- C10: when a contract completes during a tick, the chain balance rises by
exactly the contract's payout, and the ledger entry's recorded
currency-equivalent value is the payout times the ticker price as it stood
after this tick's random walk but before the completion's own market nudge. -/
theorem C10_completion_records_pre_nudge_price (app : App) (dt : ℚ)
    (choices : List (ℚ × ℚ × ℚ)) (linkId : String) (newJob : MiningJob)
    (poolOracle : List MiningJob) (nowUtcMs : ℤ) (nowInstant : ℚ)
    (hpause : app.paused = false) (c : CompletedJob)
    (hcomp : (app.mining.apply_work (app.hashpower.total_power * dt)
        nowUtcMs nowInstant).2 = some c) :
    (app.on_tick dt choices linkId newJob poolOracle nowUtcMs nowInstant).bank.chain_balance
        = app.bank.chain_balance + c.job.payout_chain ∧
    ((app.on_tick dt choices linkId newJob poolOracle nowUtcMs nowInstant).ledger.entries.head?.map
        LedgerEntry.credits_at_completion)
      = some (c.job.payout_chain * (app.ticker.tick dt choices).price) := by
  unfold App.on_tick
  simp only [hpause, Bool.false_eq_true, if_false, hcomp, LedgerState.add_entry,
    List.head?_cons, Option.map_some]
  exact ⟨trivial, rfl⟩

/-- A one-cell contract completed in the C10 witness tick. -/
def tinyJob : MiningJob :=
  { name := "Dim Archive", rows := 1, cols := 1, difficulty := 1,
    payout_chain := 2, linklet_difficulties := [1], market_impact := 1,
    lore := "tiny lore" }

/-- A single-tier rig with one owned processor (power 1). -/
def witnessHashpower : HashpowerState :=
  { tiers := [{ name := "Processor", base_cost := 75, cost_multiplier := 1.18,
                power := 1, owned := 1 }],
    selected := 0 }

/-- A concrete running simulation with `tinyJob` accepted and untouched. -/
def witnessApp : App :=
  { focus := .Mining, paused := false,
    mining := { available_jobs := [], selected_job := 0,
                active_job := some (ActiveJob.new tinyJob 0) },
    hashpower := witnessHashpower, bank := BankState.default,
    ledger := { entries := [], scroll := 0 },
    ticker := { price := 32, last_delta := 0, history := [32],
                time_since_update := 0, update_interval := 10 },
    messages := [] }

/-- The job `witnessApp`'s tick completes. -/
def witnessCompleted : CompletedJob :=
  { job := tinyJob, finished_at := 1000, duration := 2 }

/-- Witness for C10: a 2-second tick at power 1 completes the one-cell
contract of difficulty 1; the pre-nudge price is still 32. -/
theorem C10_completion_records_pre_nudge_price_witness :
    witnessApp.paused = false ∧
    (witnessApp.mining.apply_work (witnessApp.hashpower.total_power * 2) 1000 2).2
        = some witnessCompleted ∧
    ((witnessApp.on_tick 2 [] "L00-000000-0" tinyJob [] 1000 2).bank.chain_balance
        = witnessApp.bank.chain_balance + witnessCompleted.job.payout_chain ∧
      ((witnessApp.on_tick 2 [] "L00-000000-0" tinyJob [] 1000 2).ledger.entries.head?.map
          LedgerEntry.credits_at_completion)
        = some (witnessCompleted.job.payout_chain * (witnessApp.ticker.tick 2 []).price)) := by
  have hcomp : (witnessApp.mining.apply_work (witnessApp.hashpower.total_power * 2)
      1000 2).2 = some witnessCompleted := by
    norm_num [witnessApp, witnessHashpower, MiningState.apply_work,
      HashpowerState.total_power, HashpowerTier.total_power, ActiveJob.new, tinyJob,
      LinkletProgress.new, ActiveJob.apply_work, applyWorkAux, ActiveJob.is_complete,
      ActiveJob.finish, witnessCompleted]
  exact ⟨rfl, hcomp,
    C10_completion_records_pre_nudge_price witnessApp 2 [] "L00-000000-0" tinyJob []
      1000 2 rfl witnessCompleted hcomp⟩

/-- A structurally valid snapshot whose single ledger entry carries an
unrepresentable millisecond timestamp (`i64::MAX`). -/
def corruptLedgerSave : SaveData :=
  { focus := .Bank,
    mining := { available_jobs := [], selected_job := 0, active_job := none },
    hashpower_owned := [2], hashpower_selected := 0,
    bank := { chain_balance := 5, credits_balance := 7 },
    ledger := [{ id := "L00-000000-0", name := "Null Vault",
                 finished_at_ms := 9223372036854775807,
                 difficulty := 1, payout_chain := 1, credits_at_completion := 1,
                 duration_secs := 1, market_impact := 0 }],
    ledger_scroll := 0,
    ticker := { price := 1, last_delta := 0, history := [1],
                time_since_update_secs := 0, update_interval_secs := 10 },
    messages := [] }

/-- C1 is violated by the code: restoring `corruptLedgerSave` over a running
simulation fails on the ledger timestamp, yet the bank balances (and the
focus, mining and hashpower state mutated before the ledger conversion) have
already been overwritten, so the failed restore is not all-or-nothing. -/
theorem C1_failed_restore_mutates_state :
    (corruptLedgerSave.apply witnessApp 0).2
        = Except.error "invalid timestamp in save data" ∧
    (corruptLedgerSave.apply witnessApp 0).1.bank = corruptLedgerSave.bank ∧
    (corruptLedgerSave.apply witnessApp 0).1.bank ≠ witnessApp.bank := by
  have hbad : intoEntries corruptLedgerSave.ledger
      = Except.error "invalid timestamp in save data" := by
    norm_num [corruptLedgerSave, intoEntries, LedgerEntrySave.into_entry,
      fromTimestampMillis, CHRONO_MIN_TIMESTAMP_MS, CHRONO_MAX_TIMESTAMP_MS]
  refine ⟨?_, ?_, ?_⟩
  · unfold SaveData.apply
    rw [hbad]
  · unfold SaveData.apply
    rw [hbad]
  · unfold SaveData.apply
    rw [hbad]
    simp only [ne_eq]
    intro hfalse
    have h5 : (corruptLedgerSave.bank).chain_balance = (witnessApp.bank).chain_balance := by
      rw [← hfalse]
    norm_num [corruptLedgerSave, witnessApp, BankState.default] at h5

theorem into_entry_from_entry (e : LedgerEntry)
    (h1 : CHRONO_MIN_TIMESTAMP_MS ≤ e.finished_at)
    (h2 : e.finished_at ≤ CHRONO_MAX_TIMESTAMP_MS) (h3 : 0 ≤ e.duration) :
    (LedgerEntrySave.from_entry e).into_entry = Except.ok e := by
  unfold LedgerEntrySave.into_entry LedgerEntrySave.from_entry fromTimestampMillis
  dsimp only
  rw [if_pos ⟨h1, h2⟩]
  rw [max_eq_left h3]

theorem intoEntries_map_from_entry (es : List LedgerEntry)
    (h : ∀ e ∈ es,
      (CHRONO_MIN_TIMESTAMP_MS ≤ e.finished_at ∧
        e.finished_at ≤ CHRONO_MAX_TIMESTAMP_MS) ∧ 0 ≤ e.duration) :
    intoEntries (es.map LedgerEntrySave.from_entry) = Except.ok es := by
  induction es with
  | nil => rfl
  | cons e rest ih =>
    obtain ⟨⟨h1, h2⟩, h3⟩ := h e (List.mem_cons_self e rest)
    simp only [List.map_cons, intoEntries]
    rw [into_entry_from_entry e h1 h2 h3,
      ih (fun x hx => h x (List.mem_cons_of_mem _ hx))]

theorem setOwnedList_self (ts : List HashpowerTier) :
    setOwnedList ts (ts.map HashpowerTier.owned) = ts := by
  induction ts with
  | nil => rfl
  | cons t rest ih => simp [setOwnedList, ih]

theorem from_save_from_active (a : ActiveJob) (now : ℚ)
    (hidx : a.current_index ≤ a.linklets.length) (h0 : 0 ≤ a.started_at)
    (hle : a.started_at ≤ now) :
    ActiveJob.from_save now (ActiveJobSave.from_active now a) = a := by
  unfold ActiveJob.from_save ActiveJobSave.from_active instantCheckedSub
  dsimp only
  rw [max_eq_left (by linarith : (0 : ℚ) ≤ now - a.started_at),
    if_pos (by linarith : now - a.started_at ≤ now)]
  simp only [Option.getD_some]
  rw [show now - (now - a.started_at) = a.started_at from by ring,
    min_eq_left hidx]

/-- C5: restoring a just-taken snapshot succeeds and reproduces the contract
pool, the active contract (hence its elapsed time exactly), the ledger
contents, the exchange balances and the per-tier owned counts, provided the
state is reachable: ledger timestamps representable and durations
non-negative, and the active job's cursor in range with an acceptance
instant between the clock's epoch and now. -/
theorem C5_snapshot_round_trip (app : App) (now : ℚ)
    (hled : ∀ e ∈ app.ledger.entries,
      (CHRONO_MIN_TIMESTAMP_MS ≤ e.finished_at ∧
        e.finished_at ≤ CHRONO_MAX_TIMESTAMP_MS) ∧ 0 ≤ e.duration)
    (hactive : ∀ a, app.mining.active_job = some a →
      a.current_index ≤ a.linklets.length ∧ 0 ≤ a.started_at ∧ a.started_at ≤ now) :
    ((SaveData.from_app app now).apply app now).2 = Except.ok () ∧
    ((SaveData.from_app app now).apply app now).1.mining.available_jobs
        = app.mining.available_jobs ∧
    ((SaveData.from_app app now).apply app now).1.mining.active_job
        = app.mining.active_job ∧
    ((SaveData.from_app app now).apply app now).1.ledger.entries
        = app.ledger.entries ∧
    ((SaveData.from_app app now).apply app now).1.bank = app.bank ∧
    ((SaveData.from_app app now).apply app now).1.hashpower.owned_counts
        = app.hashpower.owned_counts := by
  have hok : intoEntries (app.ledger.entries.map LedgerEntrySave.from_entry)
      = Except.ok app.ledger.entries := intoEntries_map_from_entry _ hled
  have hactive2 : (app.mining.active_job.map (ActiveJobSave.from_active now)).map
      (ActiveJob.from_save now) = app.mining.active_job := by
    cases hopt : app.mining.active_job with
    | none => rfl
    | some a =>
      obtain ⟨h1, h2, h3⟩ := hactive a hopt
      show some (ActiveJob.from_save now (ActiveJobSave.from_active now a)) = some a
      rw [from_save_from_active a now h1 h2 h3]
  simp only [SaveData.apply, SaveData.from_app, hok]
  refine ⟨trivial, rfl, ?_, trivial, trivial, ?_⟩
  · exact hactive2
  · simp only [HashpowerState.apply_owned, HashpowerState.owned_counts]
    rw [setOwnedList_self]

/-- Witness for C5 on the concrete running simulation `witnessApp` at
monotonic time 5. -/
theorem C5_snapshot_round_trip_witness :
    (∀ e ∈ witnessApp.ledger.entries,
      (CHRONO_MIN_TIMESTAMP_MS ≤ e.finished_at ∧
        e.finished_at ≤ CHRONO_MAX_TIMESTAMP_MS) ∧ 0 ≤ e.duration) ∧
    (∀ a, witnessApp.mining.active_job = some a →
      a.current_index ≤ a.linklets.length ∧ 0 ≤ a.started_at ∧ a.started_at ≤ 5) ∧
    (((SaveData.from_app witnessApp 5).apply witnessApp 5).2 = Except.ok () ∧
      ((SaveData.from_app witnessApp 5).apply witnessApp 5).1.mining.available_jobs
          = witnessApp.mining.available_jobs ∧
      ((SaveData.from_app witnessApp 5).apply witnessApp 5).1.mining.active_job
          = witnessApp.mining.active_job ∧
      ((SaveData.from_app witnessApp 5).apply witnessApp 5).1.ledger.entries
          = witnessApp.ledger.entries ∧
      ((SaveData.from_app witnessApp 5).apply witnessApp 5).1.bank = witnessApp.bank ∧
      ((SaveData.from_app witnessApp 5).apply witnessApp 5).1.hashpower.owned_counts
          = witnessApp.hashpower.owned_counts) :=
  ⟨by intro e he; exact absurd he (List.not_mem_nil e),
   by
     intro a ha
     have hsome : some (ActiveJob.new tinyJob 0) = some a := ha
     injection hsome with heq
     subst heq
     refine ⟨?_, ?_, ?_⟩ <;>
       norm_num [ActiveJob.new, tinyJob, LinkletProgress.new],
   C5_snapshot_round_trip witnessApp 5
     (by intro e he; exact absurd he (List.not_mem_nil e))
     (by
       intro a ha
       have hsome : some (ActiveJob.new tinyJob 0) = some a := ha
       injection hsome with heq
       subst heq
       refine ⟨?_, ?_, ?_⟩ <;>
         norm_num [ActiveJob.new, tinyJob, LinkletProgress.new])⟩

end Blockgrave
